import Mathlib

/-!
Laghos assembly operators: a shallow embedding.

Embedding of `hip/laghos_assembly.hpp` (`DiagonalSolver`, `DensityIntegrator`,
`HipMassOperator`, `HipForceOperator`) and of `raja/general/rtable.cpp`
(`RajaTable::RajaTable`).

Conventions.
* An MFEM `Vector` is an `Array α`; the entry type `α` is kept abstract (only the
  operations the code uses are required of it), so that results hold for any
  arithmetic, and are instantiated at `ℚ` for concrete evaluations.
* A function that can abort (failed `assert`, out-of-bounds access, null
  dereference, fatal size mismatch) returns `Option`; `none` is the abort.
* Indices and sizes are `Nat`; the `int` values read from a `Table` are `Int`.
* Declarations of MFEM and of the device layer that the sources use but do not contain
  are modelled from the spec, and say so.
-/

namespace mfem

/-! ## MFEM interface types used by `DiagonalSolver` -/

/-- Modelled from the spec: MFEM's abstract `Operator` (declared in `mfem.hpp`, which is
not part of the sources).  A linear operator of `Height() × Width()` with entries
`entry i j` (row `i`, column `j`). -/
structure Operator (α : Type) where
  height : Nat
  width : Nat
  entry : Nat → Nat → α

/-- The `Operator::Width()` accessor. -/
abbrev Operator.Width {α : Type} (P : Operator α) : Nat := P.width

/-- The `Operator::Height()` accessor. -/
abbrev Operator.Height {α : Type} (P : Operator α) : Nat := P.height

/-- Modelled from the spec: `Operator::MultTranspose(x, y)` from `mfem.hpp` (not part of
the sources): `y = Pᵀ x`, that is `y[j] = Σ_i P[i][j] * x[i]`.  Mismatched sizes are a
fatal configuration error (spec §7), rendered as `none`. -/
def Operator.MultTranspose {α : Type} [Mul α] [AddCommMonoid α]
    (P : Operator α) (x y : Array α) : Option (Array α) :=
  if hx : x.size = P.height then
    if y.size = P.width then
      some (Array.ofFn (n := P.width) fun j =>
        ∑ i : Fin P.height, P.entry i.val j.val * x.get ⟨i.val, Nat.lt_of_lt_of_eq i.isLt hx.symm⟩)
    else none
  else none

/-- Modelled from the spec: MFEM's `Vector::SetSize(s)` (from `mfem.hpp`, not part of the
sources): the vector gets size `s`; its contents afterwards are indeterminate, given here
by the memory contents `mem`. -/
def SetSize {α : Type} (_v : Array α) (s : Nat) (mem : Nat → α) : Array α :=
  Array.ofFn (n := s) fun k => mem k.val

/-- Modelled from the spec: MFEM's `FiniteElementSpace` (from `mfem.hpp`, not part of the
sources), reduced to what `DiagonalSolver` uses: `GetVSize()` (the number of local
unknowns) and `GetProlongationMatrix()`, a pointer that may be null. -/
structure FiniteElementSpace (α : Type) where
  vsize : Nat
  prolongation : Option (Operator α)

/-- The `FiniteElementSpace::GetVSize()` accessor. -/
abbrev FiniteElementSpace.GetVSize {α : Type} (fes : FiniteElementSpace α) : Nat := fes.vsize

/-- The `FiniteElementSpace::GetProlongationMatrix()` accessor. -/
abbrev FiniteElementSpace.GetProlongationMatrix {α : Type} (fes : FiniteElementSpace α) :
    Option (Operator α) := fes.prolongation

/-- Modelled from the spec: the `assert` macro of `<assert.h>`.  The headers that configure
it (`hip/hip.hpp` for the assembly header) are not part of the sources; the sibling
`raja.hpp` undefines `NDEBUG` before including `<assert.h>`, and the spec (§7) describes an
assertion-style abort, so a failed assertion aborts (`none`). -/
def assert (c : Bool) : Option Unit := if c then some () else none

/-! ## `RajaTable` (`raja/general/rtable.cpp`) -/

/-- Modelled from the spec: MFEM's `Table` (from the MFEM library, not part of the
sources), reduced to what the `RajaTable` constructor reads: `Size()`, the row offsets
`GetI()` and the column indices `GetJ()` (a pointer that may be null). -/
structure Table where
  size : Int
  I : Array Int
  J : Option (Array Int)

/-- The `Table::Size()` accessor. -/
def Table.Size (t : Table) : Int := t.size

/-- The `Table::GetI()` accessor. -/
def Table.GetI (t : Table) : Array Int := t.I

/-- The `Table::GetJ()` accessor. -/
def Table.GetJ (t : Table) : Option (Array Int) := t.J

/-- Conversion of an `int` to `std::size_t` (64 bits). -/
def toSizeT (n : Int) : Nat := (n % 2 ^ 64).toNat

/-- What the `RajaTable` constructor does with memory: the member `size`, the value `nnz`,
the number of `int`s allocated for `I` (`new int[size+1]`), the number of bytes obtained
for `J` (`operator new (nnz)`), and the byte counts passed to the copies `rHtoH` (into `I`)
and `rHtoD` (into `J`; `0` when that copy is skipped). -/
structure RajaTable where
  size : Int
  nnz : Int
  I_alloc_ints : Nat
  J_alloc_bytes : Nat
  I_copy_bytes : Nat
  J_copy_bytes : Nat
deriving DecidableEq, Repr

/-- `RajaTable::RajaTable(const Table &table)`:
```
size = table.Size();
assert(size > 0);
const int nnz = table.GetI()[size];
I = new int[size+1];
J = (int*) operator new (nnz);
rHtoH(I,table.GetI(),sizeof(int)*(size+1));
if (nnz>0) { assert(table.GetJ()); rHtoD(J,table.GetJ(),sizeof(int)*nnz); }
```
`sizeofInt` is `sizeof(int)`.  The call `operator new (nnz)` is unqualified inside a member
function, so the allocation function it names is looked up in the class `RajaTable` and its
bases first; the class declaration (`rtable.hpp`, with the allocator header `rmalloc.hpp`
that `raja.hpp` includes) is not part of the sources, so the function is the parameter
`operatorNew`, from the argument to the number of bytes obtained.  A failed assertion or a
read outside `GetI()` is `none`. -/
def RajaTable.new (sizeofInt : Nat) (operatorNew : Nat → Nat) (table : Table) :
    Option RajaTable := do
  let size := table.Size
  assert (decide (size > 0))
  let nnz ← table.GetI[size.toNat]?
  let I_alloc_ints := toSizeT (size + 1)
  let J_alloc_bytes := operatorNew (toSizeT nnz)
  let I_copy_bytes := (sizeofInt * toSizeT (size + 1)) % 2 ^ 64
  if nnz > 0 then
    assert table.GetJ.isSome
    let J_copy_bytes := (sizeofInt * toSizeT nnz) % 2 ^ 64
    pure { size := size, nnz := nnz, I_alloc_ints := I_alloc_ints,
           J_alloc_bytes := J_alloc_bytes, I_copy_bytes := I_copy_bytes,
           J_copy_bytes := J_copy_bytes }
  else
    pure { size := size, nnz := nnz, I_alloc_ints := I_alloc_ints,
           J_alloc_bytes := J_alloc_bytes, I_copy_bytes := I_copy_bytes,
           J_copy_bytes := 0 }

/-- The global allocation function `::operator new(std::size_t)`: the argument is the
number of bytes. -/
def globalOperatorNew (n : Nat) : Nat := n

/-- An allocation function that takes a number of elements of `elemSize` bytes each. -/
def elementOperatorNew (elemSize : Nat) (n : Nat) : Nat := elemSize * n

namespace hydrodynamics

/-! ## `QuadratureData` and `DensityIntegrator` -/

/-- The numeric members of `struct QuadratureData` (the pointers `dqMaps` and `geom` to
device helper objects are left out). -/
structure QuadratureData (α : Type) where
  Jac0inv : Array α
  stressJinvT : Array α
  rho0DetJ0w : Array α
  h0 : α
  dt_est : α
  dtEst : Array α

/-- The class `DensityIntegrator`: references to the quadrature data and to the integration
rule (of an abstract type `IR`). -/
structure DensityIntegrator (α : Type) (IR : Type) where
  quad_data : QuadratureData α
  integ_rule : IR

/-- The face-based overload
`AssembleRHSElementVect(const FiniteElement &el, FaceElementTransformations &Tr, Vector &elvect) {assert(false);}`.
The element and transformation types are abstract.  The result is the final `elvect`. -/
def DensityIntegrator.AssembleRHSElementVectFace {α : Type} {IR FE FET : Type}
    (_self : DensityIntegrator α IR) (_el : FE) (_Tr : FET) (elvect : Array α) :
    Option (Array α) := do
  assert false
  pure elvect

/-! ## `DiagonalSolver` -/

/-- State of a `DiagonalSolver`: the `Solver` base size (`height = width`), the private
`diag` vector and the referenced finite-element space. -/
structure DiagonalSolver (α : Type) where
  height : Nat
  diag : Array α
  FESpace : FiniteElementSpace α

/-- The constructor `DiagonalSolver(fes) : Solver(fes.GetVSize()), diag(), FESpace(fes)`. -/
def DiagonalSolver.new {α : Type} (fes : FiniteElementSpace α) : DiagonalSolver α :=
  { height := fes.GetVSize, diag := #[], FESpace := fes }

/-- `DiagonalSolver::SetDiagonal(d)`:
```
const Operator *P = FESpace.GetProlongationMatrix();
diag.SetSize(P->Width());
P->MultTranspose(d, diag);
```
A null `P` is a null dereference (`none`). -/
def DiagonalSolver.SetDiagonal {α : Type} [Mul α] [AddCommMonoid α]
    (s : DiagonalSolver α) (d : Array α) (mem : Nat → α) : Option (DiagonalSolver α) :=
  match s.FESpace.GetProlongationMatrix with
  | none => none
  | some P =>
    let diag1 := SetSize s.diag P.Width mem
    match P.MultTranspose d diag1 with
    | none => none
    | some diag2 => some { s with diag := diag2 }

/-- The loop of `DiagonalSolver::Mult`:
`for (int i = 0; i < x.Size(); i++) { y(i) = x(i) / diag(i); }`,
from the current value of `i`.  An index outside `diag` or `y` is `none`. -/
def DiagonalSolver.Mult.loop {α : Type} [Div α] (diag x : Array α) (i : Nat) (y : Array α) :
    Option (Array α) :=
  if hx : i < x.size then
    if hd : i < diag.size then
      if hy : i < y.size then
        DiagonalSolver.Mult.loop diag x (i + 1) (y.set ⟨i, hy⟩ (x.get ⟨i, hx⟩ / diag.get ⟨i, hd⟩))
      else none
    else none
  else some y
termination_by x.size - i

/-- `DiagonalSolver::Mult(x, y)`. -/
def DiagonalSolver.Mult {α : Type} [Div α] (s : DiagonalSolver α) (x y : Array α) :
    Option (Array α) :=
  DiagonalSolver.Mult.loop s.diag x 0 y

/-- `DiagonalSolver::SetOperator(op) { }`. -/
def DiagonalSolver.SetOperator {α : Type} (s : DiagonalSolver α) (_op : Operator α) :
    DiagonalSolver α := s

/-! ## `HipMassOperator` -/

/-- Modelled from the spec: `HipOperator` (declared in `hip/hip.hpp`, not part of the
sources), the matrix-free operator behind `massOperator`.  The partial-assembly
bilinear-form kernel is an opaque compute primitive (spec §1, §4.2): `kernel distX i` is
entry `i` of the product of the mass matrix with `distX`. -/
structure HipOperator (α : Type) where
  height : Nat
  width : Nat
  kernel : Array α → Nat → α

/-- Modelled from the spec: `HipOperator::Mult(x, y)`, `y = M x`, for a `y` of size
`Height()`. -/
def HipOperator.Mult {α : Type} (M : HipOperator α) (x : Array α) (_y : Array α) : Array α :=
  Array.ofFn (n := M.height) fun i => M.kernel x i.val

/-- The members of `class HipMassOperator` that `Mult` uses: the essential true dofs
(`ess_tdofs_count`, `ess_tdofs`, indices into the vectors) and `massOperator`; `dim` and
`nzones` are the structural sizes. -/
structure HipMassOperator (α : Type) where
  dim : Nat
  nzones : Nat
  ess_tdofs_count : Nat
  ess_tdofs : Array Nat
  massOperator : HipOperator α

/-- Modelled from the spec: `HipMassOperator::SetEssentialTrueDofs(dofs)` (defined in
`laghos_assembly.cpp`, not part of the sources).  Spec §4.2: "records the set of globally
constrained degrees of freedom; replaces any previously set list". -/
def HipMassOperator.SetEssentialTrueDofs {α : Type} (op : HipMassOperator α)
    (dofs : Array Nat) : HipMassOperator α :=
  { op with ess_tdofs_count := dofs.size, ess_tdofs := dofs }

/-- Modelled from the spec: the last step of `HipMassOperator::Mult`, "then overwrite
essential entries" with `y[i] = x[i]` for `i` in `ess_tdofs` (spec §4.2): the entries
`ess_tdofs[k], ..., ess_tdofs[k+n-1]` are processed in order.  An index outside
`ess_tdofs`, `x` or `y` is `none`. -/
def HipMassOperator.Mult.overwrite {α : Type} (x : Array α) (ess : Array Nat) :
    Nat → Nat → Array α → Option (Array α)
  | 0, _, y => some y
  | n + 1, k, y =>
    match ess[k]? with
    | none => none
    | some i =>
      if hx : i < x.size then
        if hy : i < y.size then
          HipMassOperator.Mult.overwrite x ess n (k + 1) (y.set ⟨i, hy⟩ (x.get ⟨i, hx⟩))
        else none
      else none

/-- Modelled from the spec: `HipMassOperator::Mult(x, y)` (defined in
`laghos_assembly.cpp`, not part of the sources).  Spec §4.2: "evaluates `y = M x` where
`M` is the matrix-free mass operator, EXCEPT that rows/columns corresponding to essential
dofs are replaced by identity action (`y[i] = x[i]` for `i` in `ess_tdofs`)"; "distribute
`x` into a device buffer (`distX`), invoke the partial-assembly bilinear-form kernel to
accumulate local contributions into `y`, then overwrite essential entries"; "mismatched
vector sizes are a fatal contract violation" (`none`). -/
def HipMassOperator.Mult {α : Type} (op : HipMassOperator α) (x y : Array α) :
    Option (Array α) :=
  if x.size = op.massOperator.width ∧ y.size = op.massOperator.height then
    let distX := x
    let y1 := op.massOperator.Mult distX y
    HipMassOperator.Mult.overwrite x op.ess_tdofs op.ess_tdofs_count 0 y1
  else none

/-! ## `HipForceOperator` -/

/-- Modelled from the spec: `HipFiniteElementSpace` (declared in `hip/hip.hpp`, not part of
the sources), as the force operator uses it: the size `vsize` of its global vectors, the
number `localDofs` of scalar degrees of freedom of a zone, the number `vdim` of vector
components, and the map of (zone, local degree of freedom, component) to the global
index. -/
structure HipFiniteElementSpace where
  vsize : Nat
  localDofs : Nat
  vdim : Nat
  map : Nat → Nat → Nat → Nat

/-- The maps of a space send the local degrees of freedom of `nzones` zones into the
global vector. -/
def HipFiniteElementSpace.InRange (fes : HipFiniteElementSpace) (nzones : Nat) : Prop :=
  ∀ z, z < nzones → ∀ i, i < fes.localDofs → ∀ c, c < fes.vdim → fes.map z i c < fes.vsize

instance HipFiniteElementSpace.instDecidableInRange (fes : HipFiniteElementSpace)
    (nzones : Nat) : Decidable (fes.InRange nzones) := by
  unfold HipFiniteElementSpace.InRange
  infer_instance

/-- Modelled from the spec: `HipFiniteElementSpace::GlobalToLocal`, gathering a global
vector to zone-local resolution: the value at (zone, local degree of freedom, component)
is the entry of `v` at the mapped global index. -/
def HipFiniteElementSpace.GlobalToLocal {α : Type} [Zero α] (fes : HipFiniteElementSpace)
    (v : Array α) : Nat → Nat → Nat → α :=
  fun z i c => v.getD (fes.map z i c) 0

/-- Modelled from the spec: `HipFiniteElementSpace::LocalToGlobal`, "summing zone-local
contributions into the global vector (scatter-add semantics — degrees of freedom shared
between zones accumulate contributions from every incident zone)" (spec §4.3). -/
def HipFiniteElementSpace.LocalToGlobal {α : Type} [AddCommMonoid α]
    (fes : HipFiniteElementSpace) (nzones : Nat) (loc : Nat → Nat → Nat → α) : Array α :=
  Array.ofFn (n := fes.vsize) fun g =>
    ∑ z in Finset.range nzones, ∑ i in Finset.range fes.localDofs, ∑ c in Finset.range fes.vdim,
      if fes.map z i c = g.val then loc z i c else 0

/-- Modelled from the spec: `HipDofQuadMaps` (declared in `hip/hip.hpp`, not part of the
sources), the basis-to-quadrature maps of a space: `dofToQuad q j` is the value of basis
function `j` at quadrature point `q`, `dofToQuadD q i d` its `d`-th reference derivative. -/
structure HipDofQuadMaps (α : Type) where
  dofToQuad : Nat → Nat → α
  dofToQuadD : Nat → Nat → Nat → α

/-- The members of `class HipForceOperator`: `dim`, `nzones`, the kinematic space `h1fes`
and the thermodynamic space `l2fes`, the number `nqp` of points of `integ_rule`, the
quadrature data and the maps `l2D2Q`, `h1D2Q` (the scratch vectors `gVecL2`, `gVecH1` are
locals of the operations). -/
structure HipForceOperator (α : Type) where
  dim : Nat
  nzones : Nat
  h1fes : HipFiniteElementSpace
  l2fes : HipFiniteElementSpace
  nqp : Nat
  quad_data : QuadratureData α
  l2D2Q : HipDofQuadMaps α
  h1D2Q : HipDofQuadMaps α

/-- Configuration of a force operator: `stressJinvT` has `nzones * nqp * dim^2` entries
(spec §3), the kinematic space has `dim` components and the thermodynamic one a single
one, and both spaces map their local degrees of freedom into their global vectors. -/
def HipForceOperator.Valid {α : Type} (op : HipForceOperator α) : Prop :=
  op.quad_data.stressJinvT.size = op.nzones * op.nqp * op.dim * op.dim ∧
  op.h1fes.vdim = op.dim ∧ op.l2fes.vdim = 1 ∧
  op.h1fes.InRange op.nzones ∧ op.l2fes.InRange op.nzones

instance HipForceOperator.instDecidableValid {α : Type} (op : HipForceOperator α) :
    Decidable op.Valid := by
  unfold HipForceOperator.Valid
  infer_instance

/-- Entry `(d, c)` of the `dim × dim` block of `stressJinvT` at quadrature point `q` of
zone `z`. -/
def HipForceOperator.stress {α : Type} [Zero α] (op : HipForceOperator α)
    (z q d c : Nat) : α :=
  op.quad_data.stressJinvT.getD (((z * op.nqp + q) * op.dim + d) * op.dim + c) 0

/-- Modelled from the spec: the zone-local contraction of `Mult` (spec §4.3): "contracting
`vecL2` against `stressJinvT` at each quadrature point and accumulating into
kinematic-space local degrees of freedom via the H1 basis-to-quadrature map, per zone".
`gVecL2` is the thermodynamic vector at zone-local resolution. -/
def HipForceOperator.kernelMult {α : Type} [CommSemiring α] (op : HipForceOperator α)
    (gVecL2 : Nat → Nat → Nat → α) : Nat → Nat → Nat → α :=
  fun z i c =>
    ∑ q in Finset.range op.nqp, ∑ d in Finset.range op.dim,
      op.h1D2Q.dofToQuadD q i d * op.stress z q d c *
        ∑ j in Finset.range op.l2fes.localDofs, op.l2D2Q.dofToQuad q j * gVecL2 z j 0

/-- Modelled from the spec: the zone-local contraction of `MultTranspose` (spec §4.3):
"gathering kinematic data into quadrature points and contracting against `stressJinvT`
transposed, producing a thermodynamic-space vector".  `gVecH1` is the kinematic vector at
zone-local resolution. -/
def HipForceOperator.kernelMultTranspose {α : Type} [CommSemiring α]
    (op : HipForceOperator α) (gVecH1 : Nat → Nat → Nat → α) : Nat → Nat → Nat → α :=
  fun z j _ =>
    ∑ q in Finset.range op.nqp, op.l2D2Q.dofToQuad q j *
      ∑ i in Finset.range op.h1fes.localDofs, ∑ c in Finset.range op.dim,
        ∑ d in Finset.range op.dim,
          op.h1D2Q.dofToQuadD q i d * op.stress z q d c * gVecH1 z i c

/-- Modelled from the spec: `HipForceOperator::Mult(vecL2, vecH1)` (defined in
`laghos_assembly.cpp`, not part of the sources), spec §4.3 `Apply(vecL2) -> vecH1`: gather
`vecL2` to zone-local resolution, contract per zone, scatter-add into the global kinematic
vector.  A configuration error or mismatched vector sizes are fatal (`none`, spec §7). -/
def HipForceOperator.Mult {α : Type} [CommSemiring α] (op : HipForceOperator α)
    (vecL2 vecH1 : Array α) : Option (Array α) :=
  if op.Valid ∧ vecL2.size = op.l2fes.vsize ∧ vecH1.size = op.h1fes.vsize then
    let gVecL2 := op.l2fes.GlobalToLocal vecL2
    let gVecH1 := op.kernelMult gVecL2
    some (op.h1fes.LocalToGlobal op.nzones gVecH1)
  else none

/-- Modelled from the spec: `HipForceOperator::MultTranspose(vecH1, vecL2)` (defined in
`laghos_assembly.cpp`, not part of the sources), spec §4.3 `MultTranspose(vecH1) -> vecL2`:
gather `vecH1` to zone-local resolution, contract per zone against `stressJinvT`
transposed, scatter-add into the global thermodynamic vector. -/
def HipForceOperator.MultTranspose {α : Type} [CommSemiring α] (op : HipForceOperator α)
    (vecH1 vecL2 : Array α) : Option (Array α) :=
  if op.Valid ∧ vecL2.size = op.l2fes.vsize ∧ vecH1.size = op.h1fes.vsize then
    let gVecH1 := op.h1fes.GlobalToLocal vecH1
    let gVecL2 := op.kernelMultTranspose gVecH1
    some (op.l2fes.LocalToGlobal op.nzones gVecL2)
  else none

/-- The inner product `<u, v>` of two vectors (over the indices of `u`). -/
def dot {α : Type} [CommSemiring α] (u v : Array α) : α :=
  ∑ g in Finset.range u.size, u.getD g 0 * v.getD g 0

/-! ## Concrete configurations used to instantiate the results -/

/-- A mass operator over `ℚ` on three true dofs whose kernel doubles every entry, with no
essential dofs recorded yet. -/
def exampleMassOperator : HipMassOperator ℚ :=
  { dim := 1, nzones := 1, ess_tdofs_count := 0, ess_tdofs := #[],
    massOperator := { height := 3, width := 3, kernel := fun x i => 2 * x.getD i 0 } }

/-- A force operator over `ℚ` on a one-dimensional mesh of two zones: three kinematic
degrees of freedom (the middle one shared by the two zones), one thermodynamic degree of
freedom per zone, one quadrature point per zone. -/
def exampleForceOperator : HipForceOperator ℚ :=
  { dim := 1, nzones := 2,
    h1fes := { vsize := 3, localDofs := 2, vdim := 1, map := fun z i _ => z + i },
    l2fes := { vsize := 2, localDofs := 1, vdim := 1, map := fun z _ _ => z },
    nqp := 1,
    quad_data := { Jac0inv := #[], stressJinvT := #[2, 3], rho0DetJ0w := #[], h0 := 0,
                   dt_est := 0, dtEst := #[] },
    l2D2Q := { dofToQuad := fun _ _ => 1, dofToQuadD := fun _ _ _ => 0 },
    h1D2Q := { dofToQuad := fun _ _ => 0, dofToQuadD := fun _ i _ => if i = 0 then -1 else 1 } }

end hydrodynamics

end mfem

namespace mfem.hydrodynamics

/-! ## Proofs: `DiagonalSolver::Mult` -/

/-- Invariant of the `Mult` loop started at `i`: it completes, keeps the size of `y`,
writes the quotients at the indices `i ≤ j < x.size` and leaves the others as they are. -/
theorem DiagonalSolver.Mult.loop_spec {α : Type} [Div α] (diag x : Array α) :
    ∀ (n i : Nat) (y : Array α), x.size - i = n → x.size ≤ diag.size → x.size ≤ y.size →
      ∃ y1, DiagonalSolver.Mult.loop diag x i y = some y1 ∧ y1.size = y.size ∧
        (∀ j (hj : j < x.size) (hd : j < diag.size), i ≤ j →
          y1[j]? = some (x.get ⟨j, hj⟩ / diag.get ⟨j, hd⟩)) ∧
        (∀ j, (j < i ∨ x.size ≤ j) → y1[j]? = y[j]?) := by
  intro n
  induction n with
  | zero =>
    intro i y hn _ _
    have hi : ¬ i < x.size := by omega
    refine ⟨y, ?_, rfl, ?_, ?_⟩
    · rw [DiagonalSolver.Mult.loop, dif_neg hi]
    · intro j hj _ hij; omega
    · intro j _; rfl
  | succ n ih =>
    intro i y hn hdiag hy
    have hi : i < x.size := by omega
    have hid : i < diag.size := by omega
    have hiy : i < y.size := by omega
    obtain ⟨y1, h1, h2, h3, h4⟩ := ih (i + 1)
      (y.set ⟨i, hiy⟩ (x.get ⟨i, hi⟩ / diag.get ⟨i, hid⟩)) (by omega) hdiag
      (by rw [Array.size_set]; exact hy)
    refine ⟨y1, ?_, ?_, ?_, ?_⟩
    · rw [DiagonalSolver.Mult.loop, dif_pos hi, dif_pos hid, dif_pos hiy]; exact h1
    · rw [h2, Array.size_set]
    · intro j hj hd hij
      by_cases hji : j = i
      · subst hji
        rw [h4 j (Or.inl (Nat.lt_succ_self j))]
        simp [Array.getElem?_eq_getElem, hiy]
      · exact h3 j hj hd (by omega)
    · intro j hj
      have hne : i ≠ j := by omega
      rw [h4 j (by omega)]
      by_cases hjy : j < y.size
      · rw [Array.getElem?_eq_getElem (by rw [Array.size_set]; exact hjy),
          Array.getElem?_eq_getElem hjy, Array.getElem_set_ne _ _ _ _ hne]
      · rw [Array.getElem?_size_le _ _ (by rw [Array.size_set]; omega),
          Array.getElem?_size_le _ _ (by omega)]

/-- C1: for `x`, `y` and the stored `diag` with `diag.size ≥ x.size` and `y.size ≥ x.size`,
`DiagonalSolver::Mult` completes without an out-of-bounds access (the result is `some`),
leaves `y[i] = x[i] / diag[i]` for every `i < x.size`, and keeps the size of `y` and its
entries at the indices `≥ x.size`. -/
theorem DiagonalSolver.Mult_spec {α : Type} [Div α] (s : DiagonalSolver α) (x y : Array α)
    (hdiag : x.size ≤ s.diag.size) (hy : x.size ≤ y.size) :
    ∃ y1, s.Mult x y = some y1 ∧ y1.size = y.size ∧
      (∀ i (hi : i < x.size),
        y1[i]? = some (x.get ⟨i, hi⟩ / s.diag.get ⟨i, Nat.lt_of_lt_of_le hi hdiag⟩)) ∧
      (∀ i, x.size ≤ i → y1[i]? = y[i]?) := by
  obtain ⟨y1, h1, h2, h3, h4⟩ :=
    DiagonalSolver.Mult.loop_spec s.diag x (x.size - 0) 0 y rfl hdiag hy
  exact ⟨y1, h1, h2, fun i hi => h3 i hi _ (Nat.zero_le i), fun i hi => h4 i (Or.inr hi)⟩

/-- An instance of C1 over `ℚ`: `diag = [2, 4]`, `x = [6, 8]`, `y = [0, 0, 9]`. -/
theorem DiagonalSolver.Mult_spec_witness :
    (#[6, 8] : Array ℚ).size ≤ (#[2, 4] : Array ℚ).size ∧
    (#[6, 8] : Array ℚ).size ≤ (#[0, 0, 9] : Array ℚ).size ∧
    ∃ y1, DiagonalSolver.Mult (α := ℚ) ⟨2, #[2, 4], ⟨2, none⟩⟩ #[6, 8] #[0, 0, 9] = some y1 ∧
      y1.size = (#[0, 0, 9] : Array ℚ).size ∧
      (∀ i (hi : i < (#[6, 8] : Array ℚ).size),
        y1[i]? = some ((#[6, 8] : Array ℚ).get ⟨i, hi⟩ /
          (#[2, 4] : Array ℚ).get ⟨i, Nat.lt_of_lt_of_le hi (by decide)⟩)) ∧
      (∀ i, (#[6, 8] : Array ℚ).size ≤ i → y1[i]? = (#[0, 0, 9] : Array ℚ)[i]?) :=
  ⟨by decide, by decide,
    DiagonalSolver.Mult_spec (α := ℚ) ⟨2, #[2, 4], ⟨2, none⟩⟩ #[6, 8] #[0, 0, 9]
      (by decide) (by decide)⟩

/-- C2: over a field, `DiagonalSolver::Mult` is a left inverse of the multiplication by
the stored diagonal: for `x` and `diag` of equal size (and an output `y` that can hold
`x`), `Mult` returns, and `diag[i] * Mult(x)[i] = x[i]` at every `i` with `diag[i] ≠ 0`. -/
theorem DiagonalSolver.Mult_left_inverse {α : Type} [Field α] (s : DiagonalSolver α)
    (x y : Array α) (hdiag : s.diag.size = x.size) (hy : x.size ≤ y.size) :
    ∃ y1, s.Mult x y = some y1 ∧
      ∀ i (hi : i < x.size), s.diag.get ⟨i, hdiag ▸ hi⟩ ≠ 0 →
        ∃ v, y1[i]? = some v ∧ s.diag.get ⟨i, hdiag ▸ hi⟩ * v = x.get ⟨i, hi⟩ := by
  obtain ⟨y1, h1, _, h3, _⟩ :=
    DiagonalSolver.Mult.loop_spec s.diag x (x.size - 0) 0 y rfl (Nat.le_of_eq hdiag.symm) hy
  refine ⟨y1, h1, fun i hi hne => ⟨_, h3 i hi (hdiag ▸ hi) (Nat.zero_le i), ?_⟩⟩
  rw [← mul_div_assoc]
  exact mul_div_cancel_left₀ _ hne

/-- An instance of C2 over `ℚ`: `diag = [2, 0]`, `x = [6, 8]`. -/
theorem DiagonalSolver.Mult_left_inverse_witness :
    ∃ (hdiag : (#[2, 0] : Array ℚ).size = (#[6, 8] : Array ℚ).size),
    (#[6, 8] : Array ℚ).size ≤ (#[0, 0] : Array ℚ).size ∧
    ∃ y1, DiagonalSolver.Mult (α := ℚ) ⟨2, #[2, 0], ⟨2, none⟩⟩ #[6, 8] #[0, 0] = some y1 ∧
      ∀ i (hi : i < (#[6, 8] : Array ℚ).size), (#[2, 0] : Array ℚ).get ⟨i, hdiag ▸ hi⟩ ≠ 0 →
        ∃ v, y1[i]? = some v ∧
          (#[2, 0] : Array ℚ).get ⟨i, hdiag ▸ hi⟩ * v = (#[6, 8] : Array ℚ).get ⟨i, hi⟩ :=
  ⟨by decide, by decide,
    DiagonalSolver.Mult_left_inverse (α := ℚ) ⟨2, #[2, 0], ⟨2, none⟩⟩ #[6, 8] #[0, 0]
      (by decide) (by decide)⟩

/-- C6, as stated, fails: with `diag = [0]` and `x = [1]` the call completes normally
(`some`, not the abort `none`) and the quotient `1 / 0` is what `y` holds. -/
theorem DiagonalSolver.Mult_zero_diag_counterexample :
    (#[0] : Array ℚ)[0]? = some 0 ∧
    DiagonalSolver.Mult (α := ℚ) ⟨1, #[0], ⟨1, none⟩⟩ #[1] #[7] = some #[1 / 0] ∧
    DiagonalSolver.Mult (α := ℚ) ⟨1, #[0], ⟨1, none⟩⟩ #[1] #[7] ≠ none := by
  simp [DiagonalSolver.Mult, DiagonalSolver.Mult.loop]

/-- C6, amended: a zero entry `diag[i]`, `i < x.size`, changes nothing in the control flow
of `DiagonalSolver::Mult`: for `diag` and `y` at least as long as `x` the call completes
normally and `y[i]` holds the quotient `x[i] / 0` of the entry arithmetic. -/
theorem DiagonalSolver.Mult_zero_diag_completes {α : Type} [Div α] [Zero α]
    (s : DiagonalSolver α) (x y : Array α)
    (hdiag : x.size ≤ s.diag.size) (hy : x.size ≤ y.size)
    (i : Nat) (hi : i < x.size) (hz : s.diag[i]? = some 0) :
    ∃ y1, s.Mult x y = some y1 ∧ y1[i]? = some (x.get ⟨i, hi⟩ / 0) := by
  obtain ⟨y1, h1, _, h3, _⟩ :=
    DiagonalSolver.Mult.loop_spec s.diag x (x.size - 0) 0 y rfl hdiag hy
  have hd : i < s.diag.size := Nat.lt_of_lt_of_le hi hdiag
  have h0 : s.diag.get ⟨i, hd⟩ = 0 := by
    rw [Array.getElem?_eq_getElem hd] at hz
    exact Option.some.inj hz
  refine ⟨y1, h1, ?_⟩
  rw [h3 i hi hd (Nat.zero_le i), h0]

/-- An instance of the amended C6 over `ℚ`: `diag = [2, 0]`, `x = [6, 8]`, `i = 1`. -/
theorem DiagonalSolver.Mult_zero_diag_completes_witness :
    (#[6, 8] : Array ℚ).size ≤ (#[2, 0] : Array ℚ).size ∧
    (#[6, 8] : Array ℚ).size ≤ (#[5, 5] : Array ℚ).size ∧
    (#[2, 0] : Array ℚ)[1]? = some 0 ∧
    ∃ y1, DiagonalSolver.Mult (α := ℚ) ⟨2, #[2, 0], ⟨2, none⟩⟩ #[6, 8] #[5, 5] = some y1 ∧
      y1[1]? = some ((#[6, 8] : Array ℚ).get ⟨1, by decide⟩ / 0) :=
  ⟨by decide, by decide, by simp,
    DiagonalSolver.Mult_zero_diag_completes (α := ℚ) ⟨2, #[2, 0], ⟨2, none⟩⟩ #[6, 8] #[5, 5]
      (by decide) (by decide) 1 (by decide) (by simp)⟩

/-- C9: `DiagonalSolver::SetOperator` is a no-op: the solver state, in particular `diag`,
is the same before and after, and so is the result of every `Mult`. -/
theorem DiagonalSolver.SetOperator_noop {α : Type} [Div α] (s : DiagonalSolver α)
    (op : Operator α) :
    s.SetOperator op = s ∧ (s.SetOperator op).diag = s.diag ∧
      ∀ x y : Array α, (s.SetOperator op).Mult x y = s.Mult x y :=
  ⟨rfl, rfl, fun _ _ => rfl⟩

/-! ## Proofs: `DiagonalSolver::SetDiagonal` -/

/-- The value of `SetDiagonal` when the prolongation operator exists and `d` has one entry
per row of it. -/
theorem DiagonalSolver.SetDiagonal_eq {α : Type} [Mul α] [AddCommMonoid α]
    (s : DiagonalSolver α) (d : Array α) (mem : Nat → α) (P : Operator α)
    (hP : s.FESpace.GetProlongationMatrix = some P) (hd : d.size = P.Height) :
    s.SetDiagonal d mem = some { s with diag := Array.ofFn (n := P.width) (fun j =>
      (∑ i : Fin P.height,
        P.entry i.val j.val * d.get ⟨i.val, Nat.lt_of_lt_of_eq i.isLt hd.symm⟩)) } := by
  unfold DiagonalSolver.SetDiagonal
  rw [hP]
  simp only [Operator.MultTranspose, SetSize, Array.size_ofFn, dif_pos hd, if_true]

/-- C3: when the space has a prolongation operator `P` and `d` has one entry per row of
`P`, `SetDiagonal(d)` stores a `diag` of size `P.Width()` with
`diag[j] = Σ_i P[i][j] * d[i]`; the result does not depend on the diagonal stored before
(nor on the memory the resized vector happened to hold), and nothing else in the solver
changes. -/
theorem DiagonalSolver.SetDiagonal_spec {α : Type} [Mul α] [AddCommMonoid α]
    (s : DiagonalSolver α) (d : Array α) (mem : Nat → α) (P : Operator α)
    (hP : s.FESpace.GetProlongationMatrix = some P) (hd : d.size = P.Height) :
    ∃ s1, s.SetDiagonal d mem = some s1 ∧ s1.diag.size = P.Width ∧
      (∀ j, j < P.Width → s1.diag[j]? = some
        (∑ i : Fin P.height, P.entry i.val j * d.get ⟨i.val, Nat.lt_of_lt_of_eq i.isLt hd.symm⟩)) ∧
      s1.FESpace = s.FESpace ∧ s1.height = s.height ∧
      ∀ (diag0 : Array α) (mem0 : Nat → α),
        ∃ s2, DiagonalSolver.SetDiagonal { s with diag := diag0 } d mem0 = some s2 ∧
          s2.diag = s1.diag := by
  refine ⟨_, DiagonalSolver.SetDiagonal_eq s d mem P hP hd, ?_, ?_, rfl, rfl, ?_⟩
  · simp
  · intro j hj
    rw [Array.getElem?_eq_getElem (by simpa using hj), Array.getElem_ofFn]
  · intro diag0 mem0
    exact ⟨_, DiagonalSolver.SetDiagonal_eq { s with diag := diag0 } d mem0 P hP hd, rfl⟩

/-- An instance of C3 over `ℚ`: two local unknowns sharing one true unknown,
`P = [[1], [1]]`, `d = [3, 4]`, a solver that holds `diag = [9, 9, 9]`. -/
theorem DiagonalSolver.SetDiagonal_spec_witness :
    ∃ (hd : (#[3, 4] : Array ℚ).size = 2),
    ∃ s1, DiagonalSolver.SetDiagonal (α := ℚ)
        ⟨2, #[9, 9, 9], ⟨2, some ⟨2, 1, fun _ _ => 1⟩⟩⟩ #[3, 4] (fun _ => 0) = some s1 ∧
      s1.diag.size = 1 ∧
      (∀ j, j < 1 → s1.diag[j]? = some
        (∑ i : Fin 2, (1 : ℚ) * (#[3, 4] : Array ℚ).get ⟨i.val, Nat.lt_of_lt_of_eq i.isLt hd.symm⟩)) ∧
      s1.FESpace = ⟨2, some ⟨2, 1, fun _ _ => 1⟩⟩ ∧ s1.height = 2 ∧
      ∀ (diag0 : Array ℚ) (mem0 : Nat → ℚ),
        ∃ s2, DiagonalSolver.SetDiagonal (α := ℚ)
            ⟨2, diag0, ⟨2, some ⟨2, 1, fun _ _ => 1⟩⟩⟩ #[3, 4] mem0 = some s2 ∧
          s2.diag = s1.diag :=
  ⟨by decide, DiagonalSolver.SetDiagonal_spec (α := ℚ)
    ⟨2, #[9, 9, 9], ⟨2, some ⟨2, 1, fun _ _ => 1⟩⟩⟩ #[3, 4] (fun _ => 0) ⟨2, 1, fun _ _ => 1⟩
    rfl (by decide)⟩

/-- C8, as stated, fails: for a space with 2 local unknowns whose prolongation operator
`P = [[1], [1]]` has 1 column, the solver is constructed with size 2 and `SetDiagonal`
stores `diag = [7]`, of size 1. -/
theorem DiagonalSolver.SetDiagonal_size_counterexample :
    ∃ s1, (DiagonalSolver.new (α := ℚ) ⟨2, some ⟨2, 1, fun _ _ => 1⟩⟩).SetDiagonal
        #[3, 4] (fun _ => 0) = some s1 ∧
      s1.diag = #[7] ∧ s1.height = 2 ∧ s1.FESpace.GetVSize = 2 ∧
      s1.diag.size ≠ s1.FESpace.GetVSize := by
  refine ⟨_, DiagonalSolver.SetDiagonal_eq _ #[3, 4] _ ⟨2, 1, fun _ _ => 1⟩ rfl (by decide),
    ?_, rfl, rfl, ?_⟩
  · apply Array.ext
    · simp
    · intro i h1 h2
      simp [Fin.sum_univ_two]
      norm_num
  · simp [DiagonalSolver.new]

/-- C8, amended: when the space has a prolongation operator `P` and `d` has one entry per
row of `P`, after `SetDiagonal(d)` the size of the stored `diag` is `P.Width()`, the number
of true unknowns; it is the number of local unknowns `fes.GetVSize()` exactly when the two
numbers coincide. -/
theorem DiagonalSolver.SetDiagonal_size {α : Type} [Mul α] [AddCommMonoid α]
    (s : DiagonalSolver α) (d : Array α) (mem : Nat → α) (P : Operator α)
    (hP : s.FESpace.GetProlongationMatrix = some P) (hd : d.size = P.Height) :
    ∃ s1, s.SetDiagonal d mem = some s1 ∧ s1.diag.size = P.Width ∧
      (s1.diag.size = s1.FESpace.GetVSize ↔ P.Width = s.FESpace.GetVSize) := by
  refine ⟨_, DiagonalSolver.SetDiagonal_eq s d mem P hP hd, ?_, ?_⟩
  · simp
  · simp

/-- An instance of the amended C8 over `ℚ`: `P = [[1], [1]]`, `d = [3, 4]`. -/
theorem DiagonalSolver.SetDiagonal_size_witness :
    (#[3, 4] : Array ℚ).size = 2 ∧
    ∃ s1, DiagonalSolver.SetDiagonal (α := ℚ)
        ⟨2, #[], ⟨2, some ⟨2, 1, fun _ _ => 1⟩⟩⟩ #[3, 4] (fun _ => 0) = some s1 ∧
      s1.diag.size = 1 ∧ (s1.diag.size = s1.FESpace.GetVSize ↔ 1 = 2) :=
  ⟨by decide, DiagonalSolver.SetDiagonal_size (α := ℚ)
    ⟨2, #[], ⟨2, some ⟨2, 1, fun _ _ => 1⟩⟩⟩ #[3, 4] (fun _ => 0) ⟨2, 1, fun _ _ => 1⟩
    rfl (by decide)⟩

/-! ## Proofs: `DensityIntegrator` -/

/-- C7: the face-based `DensityIntegrator::AssembleRHSElementVect` fails for every input:
whatever the element, the face transformation and the output vector, the call aborts on
its assertion and never returns normally with a value of `elvect`. -/
theorem DensityIntegrator.AssembleRHSElementVectFace_aborts {α : Type} {IR FE FET : Type}
    (self : DensityIntegrator α IR) (el : FE) (Tr : FET) (elvect : Array α) :
    self.AssembleRHSElementVectFace el Tr elvect = none ∧
      ∀ r, self.AssembleRHSElementVectFace el Tr elvect ≠ some r := by
  have h : self.AssembleRHSElementVectFace el Tr elvect = none := rfl
  exact ⟨h, fun r hr => by rw [h] at hr; exact Option.noConfusion hr⟩

/-! ## Proofs: `HipMassOperator::Mult` -/

/-- Invariant of the overwriting loop over `ess[k], ..., ess[k+n-1]`: it completes, keeps
the size, an index among those processed ends with the entry of `x`, any other index
keeps its entry. -/
theorem HipMassOperator.Mult.overwrite_spec {α : Type} (x : Array α) (ess : Array Nat)
    (hess : ∀ (m i : Nat), ess[m]? = some i → i < x.size) :
    ∀ (n k : Nat) (y : Array α), k + n ≤ ess.size → (∀ (m i : Nat), ess[m]? = some i → i < y.size) →
      ∃ y1, HipMassOperator.Mult.overwrite x ess n k y = some y1 ∧ y1.size = y.size ∧
        (∀ (m j : Nat), k ≤ m → m < k + n → ess[m]? = some j → y1[j]? = x[j]?) ∧
        (∀ (j : Nat), (∀ (m : Nat), k ≤ m → m < k + n → ess[m]? ≠ some j) → y1[j]? = y[j]?) := by
  intro n
  induction n with
  | zero =>
    intro k y _ _
    exact ⟨y, rfl, rfl, fun m j h1 h2 => by omega, fun j _ => rfl⟩
  | succ n ih =>
    intro k y hk hy
    have hk1 : k < ess.size := by omega
    have hek : ess[k]? = some ess[k] := Array.getElem?_eq_getElem hk1
    have hix : ess[k] < x.size := hess k _ hek
    have hiy : ess[k] < y.size := hy k _ hek
    obtain ⟨y1, h1, h2, h3, h4⟩ := ih (k + 1) (y.set ⟨ess[k], hiy⟩ (x.get ⟨ess[k], hix⟩))
      (by omega) (by intro m i hm; rw [Array.size_set]; exact hy m i hm)
    have hset : (y.set ⟨ess[k], hiy⟩ (x.get ⟨ess[k], hix⟩))[ess[k]]? = x[ess[k]]? := by
      rw [Array.getElem?_eq_getElem (by rw [Array.size_set]; exact hiy),
        Array.getElem?_eq_getElem hix, Array.getElem_set_eq _ _ _ rfl]
      rfl
    have hset_ne : ∀ j, ess[k] ≠ j →
        (y.set ⟨ess[k], hiy⟩ (x.get ⟨ess[k], hix⟩))[j]? = y[j]? := by
      intro j hne
      by_cases hjy : j < y.size
      · rw [Array.getElem?_eq_getElem (by rw [Array.size_set]; exact hjy),
          Array.getElem?_eq_getElem hjy, Array.getElem_set_ne _ _ _ _ hne]
      · rw [Array.getElem?_size_le _ _ (by rw [Array.size_set]; omega),
          Array.getElem?_size_le _ _ (by omega)]
    refine ⟨y1, ?_, ?_, ?_, ?_⟩
    · rw [HipMassOperator.Mult.overwrite, hek]
      simp only [dif_pos hix, dif_pos hiy]
      exact h1
    · rw [h2, Array.size_set]
    · intro m j hm1 hm2 hmj
      by_cases hlater : ∃ m1, k + 1 ≤ m1 ∧ m1 < k + 1 + n ∧ ess[m1]? = some j
      · obtain ⟨m1, ha, hb, hc⟩ := hlater
        exact h3 m1 j ha hb hc
      · have hno : ∀ m1, k + 1 ≤ m1 → m1 < k + 1 + n → ess[m1]? ≠ some j :=
          fun m1 ha hb hc => hlater ⟨m1, ha, hb, hc⟩
        have hmk : m = k := by
          by_contra hne
          exact hno m (by omega) (by omega) hmj
        subst hmk
        have hj : ess[m] = j := by
          rw [hek] at hmj
          exact Option.some.inj hmj
        rw [h4 j hno, ← hj, hset]
    · intro j hno
      have hne : ess[k] ≠ j := by
        intro hj
        exact hno k (Nat.le_refl k) (by omega) (by rw [hek, hj])
      rw [h4 j (fun m ha hb => hno m (by omega) (by omega)), hset_ne j hne]

/-- C5: with the essential true dofs recorded by `SetEssentialTrueDofs(dofs)` (indices
into the vectors) and vectors of the operator's sizes, `HipMassOperator::Mult(x, y)`
returns and the result satisfies `y[i] = x[i]` for every `i` in the essential set. -/
theorem HipMassOperator.Mult_essential_identity {α : Type} (op : HipMassOperator α)
    (dofs : Array Nat) (x y : Array α)
    (hx : x.size = op.massOperator.width) (hy : y.size = op.massOperator.height)
    (hdofs : ∀ i ∈ dofs, i < x.size ∧ i < y.size) :
    ∃ y1, (op.SetEssentialTrueDofs dofs).Mult x y = some y1 ∧ y1.size = y.size ∧
      ∀ i ∈ dofs, ∃ v, x[i]? = some v ∧ y1[i]? = some v := by
  have hmem : ∀ (m i : Nat), dofs[m]? = some i → i ∈ dofs := by
    intro m i hm
    obtain ⟨hlt, rfl⟩ := Array.getElem?_eq_some_iff.mp hm
    exact Array.getElem_mem hlt
  obtain ⟨y1, h1, h2, h3, _⟩ := HipMassOperator.Mult.overwrite_spec x dofs
    (fun m i hm => (hdofs i (hmem m i hm)).1) dofs.size 0 (op.massOperator.Mult x y)
    (by omega)
    (by
      intro m i hm
      have := (hdofs i (hmem m i hm)).2
      simpa [HipOperator.Mult, hy] using this)
  refine ⟨y1, ?_, ?_, ?_⟩
  · simp only [HipMassOperator.Mult, HipMassOperator.SetEssentialTrueDofs]
    rw [if_pos ⟨hx, hy⟩]
    exact h1
  · rw [h2]
    simp [HipOperator.Mult, hy]
  · intro i hi
    obtain ⟨m, hm, rfl⟩ := Array.getElem_of_mem hi
    have hix : dofs[m] < x.size := (hdofs _ hi).1
    refine ⟨x[dofs[m]], Array.getElem?_eq_getElem hix, ?_⟩
    rw [h3 m dofs[m] (Nat.zero_le m) (by omega) (Array.getElem?_eq_getElem hm),
      Array.getElem?_eq_getElem hix]

/-- An instance of C5 over `ℚ`: essential dofs `[0, 2]` on three true dofs,
`x = [1, 2, 3]`. -/
theorem HipMassOperator.Mult_essential_identity_witness :
    (#[1, 2, 3] : Array ℚ).size = exampleMassOperator.massOperator.width ∧
    (#[0, 0, 0] : Array ℚ).size = exampleMassOperator.massOperator.height ∧
    (∀ i ∈ (#[0, 2] : Array Nat),
      i < (#[1, 2, 3] : Array ℚ).size ∧ i < (#[0, 0, 0] : Array ℚ).size) ∧
    ∃ y1, (exampleMassOperator.SetEssentialTrueDofs #[0, 2]).Mult #[1, 2, 3] #[0, 0, 0] =
        some y1 ∧ y1.size = (#[0, 0, 0] : Array ℚ).size ∧
      ∀ i ∈ (#[0, 2] : Array Nat), ∃ v, (#[1, 2, 3] : Array ℚ)[i]? = some v ∧ y1[i]? = some v :=
  have hdofs : ∀ i ∈ (#[0, 2] : Array Nat),
      i < (#[1, 2, 3] : Array ℚ).size ∧ i < (#[0, 0, 0] : Array ℚ).size := by
    intro i hi
    have hi2 : i = 0 ∨ i = 2 := by simpa using hi
    rcases hi2 with h | h <;> subst h <;> decide
  ⟨by decide, by decide, hdofs,
    HipMassOperator.Mult_essential_identity exampleMassOperator #[0, 2] #[1, 2, 3] #[0, 0, 0]
      (by decide) (by decide) hdofs⟩

/-! ## Proofs: `HipForceOperator` -/

/-- Reading an array built by `Array.ofFn` at an index in range. -/
theorem getD_ofFn_of_lt {α : Type} [Zero α] {n : Nat} (f : Fin n → α) (g : Nat) (hg : g < n) :
    (Array.ofFn f).getD g 0 = f ⟨g, hg⟩ := by
  have hsz : g < (Array.ofFn f).size := by rw [Array.size_ofFn]; exact hg
  rw [Array.getD, dif_pos hsz]
  exact Array.getElem_ofFn f g hsz

/-- The inner product is symmetric on vectors of equal size. -/
theorem dot_comm {α : Type} [CommSemiring α] (u v : Array α) (h : u.size = v.size) :
    dot u v = dot v u := by
  unfold dot
  rw [h]
  exact Finset.sum_congr rfl fun g _ => mul_comm _ _

/-- Scatter-add against a vector: the inner product of a scattered zone-local vector with
`W` is the sum of the local values times the gathered entries of `W`. -/
theorem HipFiniteElementSpace.dot_LocalToGlobal {α : Type} [CommSemiring α]
    (fes : HipFiniteElementSpace) (nzones : Nat) (loc : Nat → Nat → Nat → α) (W : Array α)
    (hin : fes.InRange nzones) :
    dot (fes.LocalToGlobal nzones loc) W =
      ∑ z in Finset.range nzones, ∑ i in Finset.range fes.localDofs,
        ∑ c in Finset.range fes.vdim, loc z i c * fes.GlobalToLocal W z i c := by
  unfold dot
  have hsize : (fes.LocalToGlobal nzones loc).size = fes.vsize := by
    simp [HipFiniteElementSpace.LocalToGlobal]
  rw [hsize]
  have hread : ∀ g ∈ Finset.range fes.vsize,
      (fes.LocalToGlobal nzones loc).getD g 0 * W.getD g 0 =
        ∑ z in Finset.range nzones, ∑ i in Finset.range fes.localDofs,
          ∑ c in Finset.range fes.vdim,
            if fes.map z i c = g then loc z i c * W.getD g 0 else 0 := by
    intro g hg
    have hg1 : g < fes.vsize := Finset.mem_range.mp hg
    unfold HipFiniteElementSpace.LocalToGlobal
    rw [getD_ofFn_of_lt _ g hg1]
    simp only [Finset.sum_mul, ite_mul, zero_mul]
  rw [Finset.sum_congr rfl hread, Finset.sum_comm]
  refine Finset.sum_congr rfl fun z hz => ?_
  rw [Finset.sum_comm]
  refine Finset.sum_congr rfl fun i hi => ?_
  rw [Finset.sum_comm]
  refine Finset.sum_congr rfl fun c hc => ?_
  have hm : fes.map z i c ∈ Finset.range fes.vsize :=
    Finset.mem_range.mpr
      (hin z (Finset.mem_range.mp hz) i (Finset.mem_range.mp hi) c (Finset.mem_range.mp hc))
  rw [Finset.sum_ite_eq, if_pos hm]
  rfl

/-- Left side of the zone-local duality: pairing the contracted values with `w` is pairing
the quadrature-point values `E` with the gathered `w`. -/
theorem sum_contract_left {α : Type} [CommSemiring α] (nh nd nq : Nat)
    (A : Nat → Nat → Nat → Nat → α) (E : Nat → α) (w : Nat → Nat → α) :
    (∑ i in Finset.range nh, ∑ c in Finset.range nd,
        (∑ q in Finset.range nq, ∑ d in Finset.range nd, A q i d c * E q) * w i c) =
      ∑ q in Finset.range nq, E q *
        ∑ i in Finset.range nh, ∑ c in Finset.range nd, ∑ d in Finset.range nd,
          A q i d c * w i c := by
  simp only [Finset.sum_mul, Finset.mul_sum]
  have hswap : ∀ i ∈ Finset.range nh,
      (∑ c in Finset.range nd, ∑ q in Finset.range nq, ∑ d in Finset.range nd,
          A q i d c * E q * w i c) =
        ∑ q in Finset.range nq, ∑ c in Finset.range nd, ∑ d in Finset.range nd,
          A q i d c * E q * w i c :=
    fun i _ => Finset.sum_comm
  rw [Finset.sum_congr rfl hswap, Finset.sum_comm]
  refine Finset.sum_congr rfl fun q _ => ?_
  refine Finset.sum_congr rfl fun i _ => ?_
  refine Finset.sum_congr rfl fun c _ => ?_
  refine Finset.sum_congr rfl fun d _ => ?_
  ring

/-- Right side of the zone-local duality. -/
theorem sum_contract_right {α : Type} [CommSemiring α] (nl nq : Nat)
    (B : Nat → Nat → α) (e : Nat → α) (T : Nat → α) :
    (∑ j in Finset.range nl, e j * ∑ q in Finset.range nq, B q j * T q) =
      ∑ q in Finset.range nq, (∑ j in Finset.range nl, B q j * e j) * T q := by
  simp only [Finset.sum_mul, Finset.mul_sum]
  rw [Finset.sum_comm]
  refine Finset.sum_congr rfl fun q _ => ?_
  refine Finset.sum_congr rfl fun j _ => ?_
  ring

/-- Zone-local duality of the two contractions: pairing `kernelMult e` with `w` over the
kinematic local degrees of freedom of a zone is pairing `e` with `kernelMultTranspose w`
over its thermodynamic ones. -/
theorem HipForceOperator.kernel_duality {α : Type} [CommSemiring α] (op : HipForceOperator α)
    (e w : Nat → Nat → Nat → α) (z : Nat) :
    (∑ i in Finset.range op.h1fes.localDofs, ∑ c in Finset.range op.dim,
        op.kernelMult e z i c * w z i c) =
      ∑ j in Finset.range op.l2fes.localDofs, op.kernelMultTranspose w z j 0 * e z j 0 := by
  unfold HipForceOperator.kernelMult HipForceOperator.kernelMultTranspose
  rw [sum_contract_left op.h1fes.localDofs op.dim op.nqp
    (fun q i d c => op.h1D2Q.dofToQuadD q i d * op.stress z q d c)
    (fun q => ∑ j in Finset.range op.l2fes.localDofs, op.l2D2Q.dofToQuad q j * e z j 0)
    (fun i c => w z i c)]
  have hcomm : ∀ j ∈ Finset.range op.l2fes.localDofs,
      (∑ q in Finset.range op.nqp, op.l2D2Q.dofToQuad q j *
          ∑ i in Finset.range op.h1fes.localDofs, ∑ c in Finset.range op.dim,
            ∑ d in Finset.range op.dim,
              op.h1D2Q.dofToQuadD q i d * op.stress z q d c * w z i c) * e z j 0 =
        e z j 0 * ∑ q in Finset.range op.nqp, op.l2D2Q.dofToQuad q j *
          ∑ i in Finset.range op.h1fes.localDofs, ∑ c in Finset.range op.dim,
            ∑ d in Finset.range op.dim,
              op.h1D2Q.dofToQuadD q i d * op.stress z q d c * w z i c :=
    fun j _ => mul_comm _ _
  rw [Finset.sum_congr rfl hcomm]
  rw [sum_contract_right op.l2fes.localDofs op.nqp (fun q j => op.l2D2Q.dofToQuad q j)
    (fun j => e z j 0)
    (fun q => ∑ i in Finset.range op.h1fes.localDofs, ∑ c in Finset.range op.dim,
      ∑ d in Finset.range op.dim,
        op.h1D2Q.dofToQuadD q i d * op.stress z q d c * w z i c)]

/-- C4: for a configured force operator and vectors of the sizes of the two spaces, `Mult`
and `MultTranspose` return, and the inner product of `Mult(vecL2)` with `vecH1` equals the
inner product of `vecL2` with `MultTranspose(vecH1)`. -/
theorem HipForceOperator.Mult_adjoint {α : Type} [CommSemiring α] (op : HipForceOperator α)
    (vecL2 vecH1 outH1 outL2 : Array α) (hv : op.Valid)
    (hL2 : vecL2.size = op.l2fes.vsize) (hH1 : vecH1.size = op.h1fes.vsize)
    (hoH1 : outH1.size = op.h1fes.vsize) (hoL2 : outL2.size = op.l2fes.vsize) :
    ∃ a b, op.Mult vecL2 outH1 = some a ∧ op.MultTranspose vecH1 outL2 = some b ∧
      a.size = vecH1.size ∧ b.size = vecL2.size ∧ dot a vecH1 = dot vecL2 b := by
  refine ⟨op.h1fes.LocalToGlobal op.nzones (op.kernelMult (op.l2fes.GlobalToLocal vecL2)),
    op.l2fes.LocalToGlobal op.nzones (op.kernelMultTranspose (op.h1fes.GlobalToLocal vecH1)),
    ?_, ?_, ?_, ?_, ?_⟩
  · unfold HipForceOperator.Mult
    rw [if_pos ⟨hv, hL2, hoH1⟩]
  · unfold HipForceOperator.MultTranspose
    rw [if_pos ⟨hv, hoL2, hH1⟩]
  · simp [HipFiniteElementSpace.LocalToGlobal, hH1]
  · simp [HipFiniteElementSpace.LocalToGlobal, hL2]
  · obtain ⟨_, hvd1, hvd2, hin1, hin2⟩ := hv
    have hsz : vecL2.size =
        (op.l2fes.LocalToGlobal op.nzones
          (op.kernelMultTranspose (op.h1fes.GlobalToLocal vecH1))).size := by
      simp [HipFiniteElementSpace.LocalToGlobal, hL2]
    rw [dot_comm vecL2 _ hsz, HipFiniteElementSpace.dot_LocalToGlobal _ _ _ _ hin1,
      HipFiniteElementSpace.dot_LocalToGlobal _ _ _ _ hin2, hvd1, hvd2]
    refine Finset.sum_congr rfl fun z _ => ?_
    simp only [Finset.sum_range_one]
    exact HipForceOperator.kernel_duality op _ _ z

/-- An instance of C4 over `ℚ`: the two-zone operator, `vecL2 = [1, 1]`,
`vecH1 = [1, 2, 4]`. -/
theorem HipForceOperator.Mult_adjoint_witness :
    exampleForceOperator.Valid ∧
    (#[1, 1] : Array ℚ).size = exampleForceOperator.l2fes.vsize ∧
    (#[1, 2, 4] : Array ℚ).size = exampleForceOperator.h1fes.vsize ∧
    (#[0, 0, 0] : Array ℚ).size = exampleForceOperator.h1fes.vsize ∧
    (#[0, 0] : Array ℚ).size = exampleForceOperator.l2fes.vsize ∧
    ∃ a b, exampleForceOperator.Mult #[1, 1] #[0, 0, 0] = some a ∧
      exampleForceOperator.MultTranspose #[1, 2, 4] #[0, 0] = some b ∧
      a.size = (#[1, 2, 4] : Array ℚ).size ∧ b.size = (#[1, 1] : Array ℚ).size ∧
      dot a #[1, 2, 4] = dot #[1, 1] b :=
  ⟨by decide, by decide, by decide, by decide, by decide,
    HipForceOperator.Mult_adjoint exampleForceOperator #[1, 1] #[1, 2, 4] #[0, 0, 0] #[0, 0]
      (by decide) (by decide) (by decide) (by decide) (by decide)⟩

end mfem.hydrodynamics

namespace mfem

/-! ## Proofs: `RajaTable` -/

/-- With the global allocation function, the one-row table `I = [0, 1]`, `J = [0]`
(`nnz = 1`) and `sizeof(int) = 4`: 1 byte is obtained for `J` and 4 bytes are copied into
it, while `I` gets 2 ints for the 8 bytes copied. -/
theorem RajaTable.new_global_operator_new :
    RajaTable.new 4 globalOperatorNew ⟨1, #[0, 1], some #[0]⟩ =
      some { size := 1, nnz := 1, I_alloc_ints := 2, J_alloc_bytes := 1,
             I_copy_bytes := 8, J_copy_bytes := 4 } := by
  decide

/-- With an allocation function that counts `int` elements, the same table: 4 bytes are
obtained for `J` and 4 bytes are copied into it. -/
theorem RajaTable.new_element_operator_new :
    RajaTable.new 4 (elementOperatorNew 4) ⟨1, #[0, 1], some #[0]⟩ =
      some { size := 1, nnz := 1, I_alloc_ints := 2, J_alloc_bytes := 4,
             I_copy_bytes := 8, J_copy_bytes := 4 } := by
  decide

/-- Whatever the allocation function, the bytes copied into `I` fit the `size + 1` ints
allocated for it, and the bytes copied into `J` are at most `sizeof(int) * nnz`. -/
theorem RajaTable.new_copy_bounds (sizeofInt : Nat) (operatorNew : Nat → Nat)
    (table : Table) (t : RajaTable)
    (h : RajaTable.new sizeofInt operatorNew table = some t) :
    t.I_copy_bytes ≤ sizeofInt * t.I_alloc_ints ∧
      t.J_copy_bytes ≤ sizeofInt * toSizeT t.nnz ∧
      t.J_alloc_bytes = operatorNew (toSizeT t.nnz) := by
  by_cases hs : table.Size > 0
  · cases hI : table.GetI[table.Size.toNat]? with
    | none => simp [RajaTable.new, assert, hs, hI] at h
    | some nnz =>
      by_cases hn : nnz > 0
      · cases hJ : table.GetJ with
        | none => simp [RajaTable.new, assert, hs, hI, hn, hJ] at h
        | some J =>
          simp [RajaTable.new, assert, hs, hI, hn, hJ] at h
          subst h
          exact ⟨Nat.mod_le _ _, Nat.mod_le _ _, rfl⟩
      · simp [RajaTable.new, assert, hs, hI, hn] at h
        subst h
        exact ⟨Nat.mod_le _ _, Nat.zero_le _, rfl⟩
  · simp [RajaTable.new, assert, hs] at h

end mfem
